import Mathlib

/-!
Shallow embedding of `cmd/immitablecheck/main.go` (the immutable-field
checker) and proofs about its behaviour.

Modelling conventions:
* Go strings are Lean `String`s; byte-level operations (`strings.Trim`,
  `strings.Contains`, `strings.EqualFold`, `strings.Split`) are modelled on
  `List Char`; all identifiers involved are ASCII, for which `Char.toLower`
  and `Char.toUpper` agree with Go's (per-byte) case mapping.
* `proto.Marshal(field.Options)` output is modelled as the byte list stored
  in `FieldDescriptor.options`; the checker only ever inspects these bytes.
* Go maps keyed by strings are modelled as association lists with
  overwrite-on-insert (`mapInsert`) and first-hit lookup (`mapGet`), which
  reproduces Go map read semantics.
* `*types.Var` identity is modelled by a numeric id (`GoVar.id`); the Go
  `map[*types.Var]bool` set is a `List Nat` queried with `List.contains`.
* The filesystem seen by `os.Stat` / `os.ReadFile` / `proto.Unmarshal` is a
  function `String → PathState`.
* `ast.Inspect` visits a node and then its children; only `*ast.AssignStmt`
  and `*ast.IncDecStmt` trigger emission, and the emission inspects only the
  statement's own operands.  Statement-bearing children (blocks, loop and if
  bodies, ...) are modelled by `Stmt.block`; expressions contain no
  statements in this grammar.  The right-hand side of an assignment is never
  inspected by the emission switch in the source, so `Stmt.assign` records
  only the left-hand-side expression list.
-/

/-! ## Go string primitives -/

/-- Case-insensitive string equality, modelling `strings.EqualFold` on the
ASCII identifiers that appear as type and field names. -/
def strEqFold (a b : String) : Bool :=
  a.data.map Char.toLower == b.data.map Char.toLower

/-- Whether `sub` is a leading segment of the second list, character by
character. -/
def isPrefixChars : List Char → List Char → Bool
  | [], _ => true
  | _ :: _, [] => false
  | a :: as, b :: bs => a == b && isPrefixChars as bs

/-- Substring search over character lists, modelling `strings.Contains`. -/
def containsSub (sub : List Char) : List Char → Bool
  | [] => sub.isEmpty
  | c :: rest => isPrefixChars sub (c :: rest) || containsSub sub rest

/-- Model of `strings.Contains s sub`. -/
def containsSubstr (s sub : String) : Bool :=
  containsSub sub.data s.data

/-- Model of `strings.HasSuffix s suf`. -/
def strHasSuffix (s suf : String) : Bool :=
  isPrefixChars suf.data.reverse s.data.reverse

/-- Model of `strings.ToLower` (ASCII). -/
def strToLower (s : String) : String :=
  String.mk (s.data.map Char.toLower)

/-- Remove leading characters belonging to `cut`, the one-sided half of
`strings.Trim`. -/
def trimLeadChars (cut : List Char) : List Char → List Char
  | [] => []
  | c :: rest => if cut.contains c then trimLeadChars cut rest else c :: rest

/-- Model of `strings.Trim s cutset`: strip characters of `cut` from both
ends of `s`. -/
def goTrim (s : String) (cut : List Char) : String :=
  String.mk ((trimLeadChars cut ((trimLeadChars cut s.data).reverse)).reverse)

/-- The cutset used at `main.go:172`: a backtick and a double quote. -/
def goTagCutset : List Char := [Char.ofNat 96, Char.ofNat 34]

/-- Split a character list at every occurrence of `sep` (empty segments
are kept), modelling `strings.Split` with a one-character separator. -/
def splitOnChar (sep : Char) : List Char → List (List Char)
  | [] => [[]]
  | c :: rest =>
    if c = sep then [] :: splitOnChar sep rest
    else
      match splitOnChar sep rest with
      | [] => [[c]]
      | p :: ps => (c :: p) :: ps

/-- Model of `strings.Split(s, "_")` at `main.go:307`. -/
def splitOnUnderscore : List Char → List (List Char) :=
  splitOnChar '_'

/-- Uppercase the first character of a segment, modelling
`strings.ToUpper(part[:1]) + part[1:]` with the `len(part) > 0` guard. -/
def capitalizePart : List Char → List Char
  | [] => []
  | c :: rest => c.toUpper :: rest

/-- Character-list core of `snakeToCamelCase`. -/
def snakeToCamelChars (cs : List Char) : List Char :=
  ((splitOnUnderscore cs).map capitalizePart).flatten

/-- Model of `snakeToCamelCase` (`main.go:306-314`): split on `_`,
capitalize the head of every segment, concatenate. -/
def snakeToCamelCase (s : String) : String :=
  String.mk (snakeToCamelChars s.data)

/-! ## Candidate descriptor paths (`main.go:81-87`) -/

/-- Join path components with slashes. -/
def joinSlash : List (List Char) → List Char
  | [] => []
  | [x] => x
  | x :: xs => x ++ '/' :: joinSlash xs

/-- Model of `path.Clean` (as used by `filepath.Join` on slash paths) on a
character list. -/
def goPathCleanChars (p : List Char) : List Char :=
  if p.isEmpty then ['.']
  else
    let rooted := p.headD ' ' == '/'
    let comps := (splitOnChar '/' p).filter
      (fun c => !c.isEmpty && c != ['.'])
    let resolved := comps.foldl (fun acc c =>
      if c = ['.', '.'] then
        match acc with
        | [] => if rooted then [] else [['.', '.']]
        | a :: rest => if a = ['.', '.'] then c :: a :: rest else rest
      else c :: acc) ([] : List (List Char))
    let out := joinSlash resolved.reverse
    if rooted then '/' :: out else if out.isEmpty then ['.'] else out

/-- Model of `filepath.Join(a, b)`: drop empty elements, join with a slash,
clean. -/
def goFilepathJoin (a b : String) : String :=
  if a.data.isEmpty && b.data.isEmpty then ""
  else if a.data.isEmpty then String.mk (goPathCleanChars b.data)
  else if b.data.isEmpty then String.mk (goPathCleanChars a.data)
  else String.mk (goPathCleanChars (a.data ++ '/' :: b.data))

/-- The ordered candidate list `possiblePaths` of `main.go:81-87`, built
from `pass.Pkg.Path()`. -/
def possiblePaths (pkgPath : String) : List String :=
  ["pb/descriptor/all.protos.pb",
   "./pb/descriptor/all.protos.pb",
   goFilepathJoin pkgPath "../../pb/descriptor/all.protos.pb",
   goFilepathJoin pkgPath "../pb/descriptor/all.protos.pb",
   goFilepathJoin pkgPath "pb/descriptor/all.protos.pb"]

/-! ## Descriptor set model (`loadDescriptorSet`, `main.go:29-76`) -/

/-- A proto field descriptor: its declared name and, when an options block
is present, the bytes `proto.Marshal(field.Options)` produces for it. -/
structure FieldDescriptor where
  name : String
  options : Option (List Nat)
deriving DecidableEq

/-- A proto message descriptor. -/
structure MessageDescriptor where
  name : String
  fields : List FieldDescriptor
deriving DecidableEq

/-- A proto file descriptor (only the message list is consulted). -/
structure FileDescriptor where
  messageType : List MessageDescriptor
deriving DecidableEq

/-- A `descriptorpb.FileDescriptorSet`. -/
structure FileDescriptorSet where
  file : List FileDescriptor
deriving DecidableEq

/-- The byte-pattern test of `main.go:63`: the serialized options start
with `[184, 136, 29, 1]` (tag 59527, varint wire type, value 1) and are at
least four bytes long. -/
def fieldHasImmutableOption (f : FieldDescriptor) : Bool :=
  match f.options with
  | none => false
  | some bs =>
    match bs with
    | b0 :: b1 :: b2 :: b3 :: _ => b0 == 184 && b1 == 136 && b2 == 29 && b3 == 1
    | _ => false

/-- The `FieldNames` list collected for one message (`main.go:50-67`):
declared names of the fields whose options bytes match, in field order. -/
def immutableFieldNames (m : MessageDescriptor) : List String :=
  (m.fields.filter fieldHasImmutableOption).map FieldDescriptor.name

/-- All messages of the set in file order (`main.go:43-44`). -/
def allMessages (fds : FileDescriptorSet) : List MessageDescriptor :=
  fds.file.flatMap FileDescriptor.messageType

/-- The descriptor index type: message name to immutable field names. -/
abbrev DescIndex := List (String × List String)

/-- Go-map insertion: the new binding shadows any previous one. -/
def mapInsert (k : String) (v : List String) (m : DescIndex) : DescIndex :=
  (k, v) :: m.filter (fun p => p.1 != k)

/-- Go-map lookup. -/
def mapGet (m : DescIndex) (k : String) : Option (List String) :=
  m.lookup k

/-- One iteration of the result-building loop (`main.go:44-72`): a message
is inserted only when it has at least one immutable field. -/
def indexStep (acc : DescIndex) (md : MessageDescriptor) : DescIndex :=
  if (immutableFieldNames md).isEmpty then acc
  else mapInsert md.name (immutableFieldNames md) acc

/-- The mapping `loadDescriptorSet` extracts from a successfully parsed
descriptor set. -/
def buildIndex (fds : FileDescriptorSet) : DescIndex :=
  (allMessages fds).foldl indexStep []

/-- What `os.Stat`, `os.ReadFile` and `proto.Unmarshal` jointly see at one
path. -/
inductive PathState where
  | absent : PathState
  | unreadable : PathState
  | malformed : PathState
  | valid : FileDescriptorSet → PathState
deriving DecidableEq

/-- The candidate-path loop of `main.go:89-96`: a path whose `Stat` fails,
whose read fails or whose unmarshal fails leaves the loop running; the
first successful load breaks out of it. -/
def loadLoop (fs : String → PathState) : List String → DescIndex
  | [] => []
  | p :: rest =>
    match fs p with
    | PathState.valid fds => buildIndex fds
    | _ => loadLoop fs rest

/-! ## Registry (`main.go:99-203`) -/

/-- A resolved struct field symbol: identity plus declared name. -/
structure StructField where
  id : Nat
  name : String
deriving DecidableEq

/-- A named struct type from the package scope (`main.go:103-116`; scope
entries that are not named struct types are skipped by the source and are
not modelled). -/
structure NamedStruct where
  name : String
  fields : List StructField
deriving DecidableEq

/-- The shared name-reconciliation test (`main.go:124-125`, also
`227-228`, `257-258`, `287-288`): the declared name equals a listed
descriptor name case-insensitively, either verbatim or after
snake-to-camel transliteration. -/
def fieldMatchesDescriptor (fieldName : String) (immFields : List String) : Bool :=
  immFields.any (fun im =>
    strEqFold fieldName im || strEqFold fieldName (snakeToCamelCase im))

/-- The proto-driven part of the registry (`main.go:103-132`): for each
scope type present in the index under its exact name, the ids of its fields
that match a listed descriptor field name. -/
def buildLocalSet (idx : DescIndex) (scope : List NamedStruct) : List Nat :=
  scope.flatMap (fun ns =>
    match mapGet idx ns.name with
    | none => []
    | some immFields =>
      ((ns.fields.filter (fun f => fieldMatchesDescriptor f.name immFields)).map
        StructField.id))

/-- The syntactic side of one declared field: its raw tag literal (with
delimiters, as in `Tag.Value`), the texts of its trailing comment group
and the texts of its doc comment group. -/
structure AstField where
  tag : Option String
  commentTexts : List String
  docTexts : List String
deriving DecidableEq

/-- The tag test of `main.go:171-176`: trim backticks and double quotes
from both ends of the raw literal, then look for either truthy spelling as
a substring. -/
def tagMarksImmutable (tagValue : String) : Bool :=
  let tagText := goTrim tagValue goTagCutset
  containsSubstr tagText "immutable:\"true\"" ||
    containsSubstr tagText "immutable:\"1\""

/-- The comment test of `main.go:180` and `189`: the lowered comment text
contains the marker word anywhere. -/
def commentMarks (text : String) : Bool :=
  containsSubstr (strToLower text) "immutable"

/-- A declared field is locally marked when its tag, a trailing comment or
a doc comment marks it (`main.go:168-194`). -/
def astFieldMarksImmutable (af : AstField) : Bool :=
  (match af.tag with
   | some t => tagMarksImmutable t
   | none => false) ||
  af.commentTexts.any commentMarks ||
  af.docTexts.any commentMarks

/-- One `TypeSpec` under analysis: the resolved fields of the struct and
the syntactic field list, paired positionally. -/
structure TypeSpecNode where
  typeFields : List StructField
  astFields : List AstField

/-- The marker scan of `main.go:161-199`: pair resolved and syntactic
fields by index (the `len(st.Fields.List) <= i` bound makes this a zip)
and keep the ids of the marked ones. -/
def localMarkedIds (ts : TypeSpecNode) : List Nat :=
  ((ts.typeFields.zip ts.astFields).filter
    (fun pr => astFieldMarksImmutable pr.2)).map (fun pr => pr.1.id)

/-! ## Mutation scanner (`main.go:206-300`) -/

/-- A resolved field symbol (`*types.Var`) with its package data. -/
structure GoVar where
  id : Nat
  name : String
  pkgName : String
  pkgPath : String
deriving DecidableEq

/-- The fragment of `types.Type` that `getReceiverTypeName` consults. -/
inductive GoType where
  | named : String → GoType
  | pointer : GoType → GoType
  | other : GoType
deriving DecidableEq

/-- What `selInfo.Obj()` resolves to: a field variable or something else
(e.g. a method). -/
inductive SelObj where
  | fieldVar : GoVar → SelObj
  | nonVar : SelObj
deriving DecidableEq

/-- A `types.Selection` as the scanner uses it. -/
structure SelInfo where
  obj : SelObj
  recv : GoType
deriving DecidableEq

/-- Model of `getReceiverTypeName` (`main.go:317-326`): unwrap one pointer
level, return the named type's name or the empty string. -/
def getReceiverTypeName (si : SelInfo) : String :=
  match si.recv with
  | GoType.pointer e =>
    match e with
    | GoType.named n => n
    | _ => ""
  | GoType.named n => n
  | _ => ""

/-- The generated-package heuristic of `main.go:225` (and `255`, `285`). -/
def isPbPackage (v : GoVar) : Bool :=
  v.pkgName == "pb" || strHasSuffix v.pkgPath "/pb"

/-- The descriptor fallback condition shared by all three mutation shapes
(`main.go:224-232`, `254-263`, `284-292`): the receiver type name is in the
index, the field's package looks generated, and the field name matches a
listed descriptor name. -/
def fallbackMatch (idx : DescIndex) (si : SelInfo) (v : GoVar) : Bool :=
  match mapGet idx (getReceiverTypeName si) with
  | some immFields => isPbPackage v && fieldMatchesDescriptor v.name immFields
  | none => false

/-- Expressions, as far as the scanner distinguishes them.  A selector
carries its token position and, when `pass.TypesInfo.Selections` knows it,
its resolution. -/
inductive Expr where
  | sel : Nat → Option SelInfo → Expr
  | index : Nat → Expr → Expr
  | ident : Nat → Expr

/-- A reported diagnostic: position and message. -/
structure Diagnostic where
  pos : Nat
  msg : String
deriving DecidableEq

/-- Message of `main.go:221` / `229`. -/
def assignMsg (n : String) : String := "assignment to immutable field " ++ n

/-- Message of `main.go:251` / `259`. -/
def indexMsg (n : String) : String :=
  "modifying immutable field " ++ n ++ " (map/slice index)"

/-- Message of `main.go:280` / `289`. -/
def incDecMsg (n : String) : String :=
  "modifying immutable field " ++ n ++ " (inc/dec)"

/-- The direct-selector branch for one assignment target
(`main.go:212-237`): report when the symbol is locally immutable, else
when the descriptor fallback matches. -/
def checkSelAssign (reg : List Nat) (idx : DescIndex) : Expr → List Diagnostic
  | Expr.sel pos (some si) =>
    match si.obj with
    | SelObj.fieldVar v =>
      if reg.contains v.id then [⟨pos, assignMsg v.name⟩]
      else if fallbackMatch idx si v then [⟨pos, assignMsg v.name⟩]
      else []
    | SelObj.nonVar => []
  | _ => []

/-- The indexed-write branch for one assignment target
(`main.go:240-268`): fires only when the indexed container is itself a
resolved selector; the diagnostic sits at the index expression. -/
def checkIndexAssign (reg : List Nat) (idx : DescIndex) : Expr → List Diagnostic
  | Expr.index ipos x =>
    match x with
    | Expr.sel _ (some si) =>
      match si.obj with
      | SelObj.fieldVar v =>
        if reg.contains v.id then [⟨ipos, indexMsg v.name⟩]
        else if fallbackMatch idx si v then [⟨ipos, indexMsg v.name⟩]
        else []
      | SelObj.nonVar => []
    | _ => []
  | _ => []

/-- Both per-target branches, in source order. -/
def checkLhs (reg : List Nat) (idx : DescIndex) (e : Expr) : List Diagnostic :=
  checkSelAssign reg idx e ++ checkIndexAssign reg idx e

/-- The increment/decrement branch (`main.go:270-296`).  Unlike the
assignment branch, the local check and the descriptor fallback are two
independent `if` statements in the source, so both can fire for the same
operand. -/
def checkIncDec (reg : List Nat) (idx : DescIndex) : Expr → List Diagnostic
  | Expr.sel pos (some si) =>
    match si.obj with
    | SelObj.fieldVar v =>
      (if reg.contains v.id then [⟨pos, incDecMsg v.name⟩] else []) ++
      (if fallbackMatch idx si v then [⟨pos, incDecMsg v.name⟩] else [])
    | SelObj.nonVar => []
  | _ => []

/-- Statements, as far as the scanner's switch distinguishes them.
`block` stands for any statement-bearing node `ast.Inspect` descends
into. -/
inductive Stmt where
  | assign : List Expr → Stmt
  | incDec : Expr → Stmt
  | block : List Stmt → Stmt
  | other : Stmt

/-- Diagnostics the switch emits at one node (`main.go:208-297`). -/
def emitStmt (reg : List Nat) (idx : DescIndex) : Stmt → List Diagnostic
  | Stmt.assign lhs => lhs.flatMap (checkLhs reg idx)
  | Stmt.incDec x => checkIncDec reg idx x
  | _ => []

mutual
/-- The `ast.Inspect` walk over one statement: emit at the node, then walk
its children. -/
def scanStmt (reg : List Nat) (idx : DescIndex) : Stmt → List Diagnostic
  | Stmt.assign lhs => lhs.flatMap (checkLhs reg idx)
  | Stmt.incDec x => checkIncDec reg idx x
  | Stmt.block body => scanStmts reg idx body
  | Stmt.other => []

/-- The walk over a statement list, in order. -/
def scanStmts (reg : List Nat) (idx : DescIndex) : List Stmt → List Diagnostic
  | [] => []
  | s :: rest => scanStmt reg idx s ++ scanStmts reg idx rest
end

mutual
/-- Pre-order linearization of one statement. -/
def preorderStmts : Stmt → List Stmt
  | Stmt.block body => Stmt.block body :: preorderList body
  | s => [s]

/-- Pre-order linearization of a statement list. -/
def preorderList : List Stmt → List Stmt
  | [] => []
  | s :: rest => preorderStmts s ++ preorderList rest
end

/-- One file under analysis: its type declarations (for the marker scan)
and its top-level statements (for the mutation scan). -/
structure GoFile where
  typeSpecs : List TypeSpecNode
  stmts : List Stmt

/-- The descriptor index a run ends up with (`main.go:80-96`). -/
def runIndex (fs : String → PathState) (pkgPath : String) : DescIndex :=
  loadLoop fs (possiblePaths pkgPath)

/-- The tag/comment-marked ids over all files (`main.go:135-203`). -/
def localMarks (files : List GoFile) : List Nat :=
  files.flatMap (fun f => f.typeSpecs.flatMap localMarkedIds)

/-- The `immutableFields` set a run ends up with (`main.go:99-203`). -/
def runRegistry (fs : String → PathState) (pkgPath : String)
    (scope : List NamedStruct) (files : List GoFile) : List Nat :=
  buildLocalSet (runIndex fs pkgPath) scope ++ localMarks files

/-- The whole analyzer `run` (`main.go:78-303`): build the registry, then
scan every file's statements in file order. -/
def run (fs : String → PathState) (pkgPath : String)
    (scope : List NamedStruct) (files : List GoFile) : List Diagnostic :=
  files.flatMap (fun f =>
    scanStmts (runRegistry fs pkgPath scope files) (runIndex fs pkgPath) f.stmts)

/-! ## Specification-side helpers used only in theorem statements -/

/-- The first candidate whose state is a successfully parsed descriptor
set (specification helper for the loader loop). -/
def firstValid (fs : String → PathState) : List String → Option FileDescriptorSet
  | [] => none
  | p :: rest =>
    match fs p with
    | PathState.valid fds => some fds
    | _ => firstValid fs rest

/-- Specification helper: the `FieldNames` entry the message list yields
for a name, later messages shadowing earlier ones as Go map writes do. -/
def lookMsgs : List MessageDescriptor → String → Option (List String)
  | [], _ => none
  | md :: rest, k =>
    match lookMsgs rest k with
    | some l => some l
    | none =>
      if md.name = k ∧ immutableFieldNames md ≠ [] then
        some (immutableFieldNames md)
      else none

/-- The variable a selection resolves to, when it is a field variable. -/
def varOf (si : SelInfo) : Option GoVar :=
  match si.obj with
  | SelObj.fieldVar v => some v
  | SelObj.nonVar => none

/-- The checked selector of one assignment target: the reporting position
paired with the selection the branch consults. -/
def lhsSelTargets : Expr → List (Nat × SelInfo)
  | Expr.sel p (some si) => [(p, si)]
  | Expr.index p (Expr.sel _ (some si)) => [(p, si)]
  | _ => []

/-- The checked selectors of one statement node. -/
def stmtTargets : Stmt → List (Nat × SelInfo)
  | Stmt.assign lhs => lhs.flatMap lhsSelTargets
  | Stmt.incDec (Expr.sel p (some si)) => [(p, si)]
  | _ => []

/-- Every checked selector over all files, in emission order. -/
def allTargets (files : List GoFile) : List (Nat × SelInfo) :=
  files.flatMap (fun f => f.stmts.flatMap (fun s => (preorderStmts s).flatMap stmtTargets))

/-! ## Concrete fixtures for witnesses and counterexamples -/

/-- A descriptor set with one message `Person` whose field `id` carries the
immutable option bytes and whose field `name` has no options. -/
def fds0 : FileDescriptorSet :=
  ⟨[⟨[⟨"Person", [⟨"id", some [184, 136, 29, 1]⟩, ⟨"name", none⟩]⟩]⟩]⟩

/-- A filesystem with a well-formed descriptor at the first conventional
location. -/
def fsOk : String → PathState := fun p =>
  if p = "pb/descriptor/all.protos.pb" then PathState.valid fds0
  else PathState.absent

/-- A filesystem whose first conventional location exists but holds a
malformed document, while the second location parses fine. -/
def fsC4 : String → PathState := fun p =>
  if p = "pb/descriptor/all.protos.pb" then PathState.malformed
  else if p = "./pb/descriptor/all.protos.pb" then PathState.valid fds0
  else PathState.absent

/-- Field symbol `Id` of the generated `pb` package. -/
def vC1w : GoVar := ⟨7, "Id", "pb", "proj/pb"⟩

/-- Selection resolving to `vC1w` with receiver type `Person`. -/
def siC1w : SelInfo := ⟨SelObj.fieldVar vC1w, GoType.named "Person"⟩

/-- Descriptor index listing `Person.id` as immutable. -/
def idxC1w : DescIndex := [("Person", ["id"])]

/-- Field symbol of an unrelated `pb`-package type whose name collides
with the descriptor message `Person`. -/
def vC2x : GoVar := ⟨9, "Id", "pb", "m/pb"⟩

/-- Selection resolving to `vC2x` with receiver type `Person`. -/
def siC2x : SelInfo := ⟨SelObj.fieldVar vC2x, GoType.named "Person"⟩

/-- A marker-free field symbol used in the `c2` witness. -/
def vC2w : GoVar := ⟨4, "Name", "app", "m/app"⟩

/-- Selection resolving to `vC2w`. -/
def siC2w : SelInfo := ⟨SelObj.fieldVar vC2w, GoType.named "Person"⟩

/-- One file assigning once to the marker-free field `vC2w`. -/
def filesC2w : List GoFile := [⟨[], [Stmt.assign [Expr.sel 5 (some siC2w)]]⟩]

/-- One file with one comment-marked field (id 3) and one assignment to
it, used in the degraded-mode witness. -/
def filesC9w : List GoFile :=
  [⟨[⟨[⟨3, "Cnt"⟩], [⟨none, [" // immutable"], []⟩]⟩],
    [Stmt.assign [Expr.sel 9 (some ⟨SelObj.fieldVar ⟨3, "Cnt", "app", "m/app"⟩,
      GoType.named "T"⟩)]]⟩]

/-! ## Association-list map lemmas -/

theorem lookup_filter_ne (m : DescIndex) (k k' : String) (h : k ≠ k') :
    (m.filter (fun p => p.1 != k')).lookup k = m.lookup k := by
  have hkk : (k == k') = false := by simp [h]
  induction m with
  | nil => rfl
  | cons p m ih =>
    rcases p with ⟨pk, pv⟩
    by_cases hpk : pk = k'
    · subst hpk
      simp [List.filter_cons, List.lookup, hkk, ih]
    · by_cases hk : k = pk
      · subst hk
        simp [List.filter_cons, hpk, List.lookup]
      · have hkp : (k == pk) = false := by simp [hk]
        simp [List.filter_cons, hpk, List.lookup, hkp, ih]

theorem mapGet_indexStep (acc : DescIndex) (md : MessageDescriptor) (k : String) :
    mapGet (indexStep acc md) k =
      if md.name = k ∧ immutableFieldNames md ≠ [] then
        some (immutableFieldNames md)
      else mapGet acc k := by
  unfold indexStep
  by_cases he : (immutableFieldNames md).isEmpty
  · have hnil : immutableFieldNames md = [] := by
      simpa [List.isEmpty_iff] using he
    simp [he, hnil]
  · have hne : immutableFieldNames md ≠ [] := by
      simpa [List.isEmpty_iff] using he
    simp only [he, Bool.false_eq_true, if_false]
    unfold mapInsert mapGet
    by_cases hk : md.name = k
    · simp [List.lookup, hk, hne]
    · have hkm : (k == md.name) = false := by
        have hne2 : k ≠ md.name := fun hh => hk hh.symm
        simp [hne2]
      simp only [List.lookup, hkm]
      rw [lookup_filter_ne _ k md.name (fun hh => hk hh.symm)]
      simp [hk, mapGet]

theorem mapGet_foldl_indexStep (ms : List MessageDescriptor) (k : String) :
    ∀ acc, mapGet (List.foldl indexStep acc ms) k =
      match lookMsgs ms k with
      | some l => some l
      | none => mapGet acc k := by
  induction ms with
  | nil => intro acc; rfl
  | cons md rest ih =>
    intro acc
    rw [List.foldl_cons, ih (indexStep acc md)]
    cases hr : lookMsgs rest k with
    | some l => simp [lookMsgs, hr]
    | none =>
      simp only [lookMsgs, hr, mapGet_indexStep]
      by_cases hc : (md.name = k ∧ immutableFieldNames md ≠ []) <;> simp [hc]

theorem mapGet_buildIndex (fds : FileDescriptorSet) (k : String) :
    mapGet (buildIndex fds) k = lookMsgs (allMessages fds) k := by
  unfold buildIndex
  rw [mapGet_foldl_indexStep]
  cases h : lookMsgs (allMessages fds) k <;> simp [mapGet, List.lookup]

theorem lookMsgs_eq_some {ms : List MessageDescriptor} {k : String} {l : List String}
    (h : lookMsgs ms k = some l) :
    ∃ md, md ∈ ms ∧ md.name = k ∧ l = immutableFieldNames md ∧ l ≠ [] := by
  induction ms with
  | nil => cases h
  | cons md rest ih =>
    unfold lookMsgs at h
    cases hr : lookMsgs rest k with
    | some l' =>
      rw [hr] at h
      obtain ⟨md', hmem, hn, hl, hne⟩ := ih (hr.trans h)
      exact ⟨md', List.mem_cons_of_mem _ hmem, hn, hl, hne⟩
    | none =>
      rw [hr] at h
      split_ifs at h with hc
      · obtain ⟨hname, hnames⟩ := hc
        obtain rfl : immutableFieldNames md = l := by
          simpa using h
        exact ⟨md, List.mem_cons_self _ _, hname, rfl, hnames⟩

theorem lookMsgs_isSome_iff {ms : List MessageDescriptor} {k : String} :
    (lookMsgs ms k).isSome = true ↔
      ∃ md, md ∈ ms ∧ md.name = k ∧ immutableFieldNames md ≠ [] := by
  induction ms with
  | nil => simp [lookMsgs]
  | cons md rest ih =>
    rw [show lookMsgs (md :: rest) k =
      (match lookMsgs rest k with
       | some l => some l
       | none =>
         if md.name = k ∧ immutableFieldNames md ≠ [] then
           some (immutableFieldNames md)
         else none) from rfl]
    cases hr : lookMsgs rest k with
    | some l =>
      have hrest : ∃ md', md' ∈ rest ∧ md'.name = k ∧ immutableFieldNames md' ≠ [] :=
        ih.mp (by rw [hr]; rfl)
      constructor
      · intro _
        obtain ⟨md', hmem, hn, hne⟩ := hrest
        exact ⟨md', List.mem_cons_of_mem _ hmem, hn, hne⟩
      · intro _; rfl
    | none =>
      have hrest : ¬ ∃ md', md' ∈ rest ∧ md'.name = k ∧ immutableFieldNames md' ≠ [] := by
        rw [← ih, hr]; simp
      by_cases hc : (md.name = k ∧ immutableFieldNames md ≠ [])
      · constructor
        · intro _
          exact ⟨md, List.mem_cons_self _ _, hc.1, hc.2⟩
        · intro _
          rw [if_pos hc]
          rfl
      · rw [if_neg hc]
        simp only [Option.isSome_none, Bool.false_eq_true, false_iff]
        rintro ⟨md', hmem, hn, hne⟩
        rcases List.mem_cons.mp hmem with rfl | hmem'
        · exact hc ⟨hn, hne⟩
        · exact hrest ⟨md', hmem', hn, hne⟩

/-- C5: the descriptor loader lists a field exactly when its serialized
options begin with the bytes `[184, 136, 29, 1]` (extension tag 59527 with
varint wire type followed by the one-byte value 1); listed names are the
declared descriptor names, untransliterated; and a message has an entry
only when at least one of its fields is listed. -/
theorem c5_descriptor_loader (fds : FileDescriptorSet) (m : String) :
    (∀ l, mapGet (buildIndex fds) m = some l →
      ∃ md, md ∈ allMessages fds ∧ md.name = m ∧
        l = (md.fields.filter fieldHasImmutableOption).map FieldDescriptor.name ∧
        l ≠ []) ∧
    ((mapGet (buildIndex fds) m).isSome = true ↔
      ∃ md, md ∈ allMessages fds ∧ md.name = m ∧
        (md.fields.filter fieldHasImmutableOption).map FieldDescriptor.name ≠ []) ∧
    (∀ f : FieldDescriptor, fieldHasImmutableOption f = true ↔
      ∃ bs, f.options = some bs ∧ 4 ≤ bs.length ∧
        bs.take 4 = [184, 136, 29, 1]) := by
  refine ⟨?_, ?_, ?_⟩
  · intro l hl
    rw [mapGet_buildIndex] at hl
    obtain ⟨md, hmem, hn, hle, hne⟩ := lookMsgs_eq_some hl
    exact ⟨md, hmem, hn, by simpa [immutableFieldNames] using hle, hne⟩
  · rw [mapGet_buildIndex, lookMsgs_isSome_iff]
    simp [immutableFieldNames]
  · intro f
    constructor
    · intro h
      unfold fieldHasImmutableOption at h
      cases ho : f.options with
      | none => rw [ho] at h; cases h
      | some bs =>
        rw [ho] at h
        rcases bs with _ | ⟨b0, bs⟩
        · cases h
        rcases bs with _ | ⟨b1, bs⟩
        · cases h
        rcases bs with _ | ⟨b2, bs⟩
        · cases h
        rcases bs with _ | ⟨b3, rest⟩
        · cases h
        simp only [Bool.and_eq_true, beq_iff_eq] at h
        obtain ⟨⟨⟨h0, h1⟩, h2⟩, h3⟩ := h
        subst h0; subst h1; subst h2; subst h3
        refine ⟨184 :: 136 :: 29 :: 1 :: rest, rfl, ?_, rfl⟩
        simp [List.length_cons]
    · rintro ⟨bs, hbs, hlen, htake⟩
      unfold fieldHasImmutableOption
      rw [hbs]
      rcases bs with _ | ⟨b0, bs⟩
      · simp at hlen
      rcases bs with _ | ⟨b1, bs⟩
      · simp at hlen
      rcases bs with _ | ⟨b2, bs⟩
      · simp at hlen
      rcases bs with _ | ⟨b3, rest⟩
      · simp at hlen
      simp only [List.take, List.cons.injEq] at htake
      obtain ⟨h0, h1, h2, h3, -⟩ := htake
      subst h0; subst h1; subst h2; subst h3
      rfl

/-- Witness for `c5_descriptor_loader` at the concrete set `fds0`. -/
theorem c5_descriptor_loader_witness :
    ∃ md, md ∈ allMessages fds0 ∧ md.name = "Person" ∧
      (["id"] : List String) =
        (md.fields.filter fieldHasImmutableOption).map FieldDescriptor.name ∧
      (["id"] : List String) ≠ [] :=
  (c5_descriptor_loader fds0 "Person").1 ["id"] (by decide)

/-! ## Transliteration lemmas -/

theorem splitOnChar_ne_nil (sep : Char) (cs : List Char) :
    splitOnChar sep cs ≠ [] := by
  induction cs with
  | nil => simp [splitOnChar]
  | cons c rest ih =>
    unfold splitOnChar
    by_cases h : c = sep
    · simp [h]
    · simp only [h, if_false]
      cases hr : splitOnChar sep rest <;> simp

theorem splitOnChar_no_sep (sep : Char) (xs : List Char) (h : sep ∉ xs) :
    splitOnChar sep xs = [xs] := by
  induction xs with
  | nil => rfl
  | cons c rest ih =>
    have hc : ¬c = sep := by
      rintro rfl
      exact h (List.mem_cons_self _ _)
    have hrest : sep ∉ rest := fun hm => h (List.mem_cons_of_mem _ hm)
    unfold splitOnChar
    rw [if_neg hc, ih hrest]

theorem splitOnChar_append (sep : Char) (xs ys : List Char) (h : sep ∉ xs) :
    splitOnChar sep (xs ++ sep :: ys) = xs :: splitOnChar sep ys := by
  induction xs with
  | nil => simp [splitOnChar]
  | cons c rest ih =>
    have hc : ¬c = sep := by
      rintro rfl
      exact h (List.mem_cons_self _ _)
    have hrest : sep ∉ rest := fun hm => h (List.mem_cons_of_mem _ hm)
    rw [List.cons_append]
    simp only [splitOnChar, if_neg hc, ih hrest]

theorem snakeToCamelChars_append (xs ys : List Char) (h : '_' ∉ xs) :
    snakeToCamelChars (xs ++ '_' :: ys) = capitalizePart xs ++ snakeToCamelChars ys := by
  unfold snakeToCamelChars splitOnUnderscore
  rw [splitOnChar_append _ _ _ h]
  simp

theorem snakeToCamelChars_no_sep (xs : List Char) (h : '_' ∉ xs) :
    snakeToCamelChars xs = capitalizePart xs := by
  unfold snakeToCamelChars splitOnUnderscore
  rw [splitOnChar_no_sep _ _ h]
  simp

/-- C6: `snakeToCamelCase` splits at underscores, capitalizes every
segment head and concatenates; `team_lead` therefore matches a declared
field `TeamLead` through transliteration and `team_lead` verbatim through
the case-insensitive comparison, but never `TeamLeadId`. -/
theorem c6_transliteration :
    (∀ xs ys : List Char, '_' ∉ xs →
      snakeToCamelChars (xs ++ '_' :: ys) =
        capitalizePart xs ++ snakeToCamelChars ys) ∧
    (∀ xs : List Char, '_' ∉ xs → snakeToCamelChars xs = capitalizePart xs) ∧
    snakeToCamelCase "team_lead" = "TeamLead" ∧
    fieldMatchesDescriptor "TeamLead" ["team_lead"] = true ∧
    fieldMatchesDescriptor "team_lead" ["team_lead"] = true ∧
    fieldMatchesDescriptor "TeamLeadId" ["team_lead"] = false ∧
    snakeToCamelCase "user_id" = "UserId" ∧
    snakeToCamelCase "full_name" = "FullName" ∧
    snakeToCamelCase "id" = "Id" :=
  ⟨snakeToCamelChars_append, snakeToCamelChars_no_sep,
   by decide, by decide, by decide, by decide, by decide, by decide, by decide⟩

/-- Witness for `c6_transliteration` at the concrete segments of
`team_lead`. -/
theorem c6_transliteration_witness :
    snakeToCamelChars ("team".data ++ '_' :: "lead".data) =
      capitalizePart "team".data ++ snakeToCamelChars "lead".data :=
  c6_transliteration.1 "team".data "lead".data (by decide)

/-! ## Registry-merge lemmas -/

/-- C3 counterexample: the type-name lookup of the merge is a plain Go map
access, so a scope type `Person` does not pick up a descriptor entry keyed
`person` even though the names match case-insensitively and its field `Id`
matches the listed field `id`. -/
theorem c3_case_sensitive_lookup :
    buildLocalSet [("person", ["id"])] [⟨"Person", [⟨1, "Id"⟩]⟩] = [] ∧
    strEqFold "Person" "person" = true ∧
    fieldMatchesDescriptor "Id" ["id"] = true := by
  decide

/-- C3 amended: a field id enters the merged local set exactly when its
declaring scope type has a descriptor entry under its exact (not
case-insensitive) name and the field's declared name matches a listed
descriptor field name case-insensitively, verbatim or transliterated. -/
theorem c3_amended_registry_merge (idx : DescIndex) (scope : List NamedStruct)
    (fid : Nat) :
    fid ∈ buildLocalSet idx scope ↔
      ∃ ns, ns ∈ scope ∧ ∃ l, mapGet idx ns.name = some l ∧
        ∃ f, f ∈ ns.fields ∧ fieldMatchesDescriptor f.name l = true ∧
          f.id = fid := by
  unfold buildLocalSet
  rw [List.mem_flatMap]
  constructor
  · rintro ⟨ns, hns, hmem⟩
    cases hl : mapGet idx ns.name with
    | none => rw [hl] at hmem; simp at hmem
    | some l =>
      rw [hl] at hmem
      simp only [List.mem_map, List.mem_filter] at hmem
      obtain ⟨f, ⟨hf, hm⟩, hid⟩ := hmem
      exact ⟨ns, hns, l, hl, f, hf, hm, hid⟩
  · rintro ⟨ns, hns, l, hl, f, hf, hm, hid⟩
    refine ⟨ns, hns, ?_⟩
    rw [hl]
    simp only [List.mem_map, List.mem_filter]
    exact ⟨f, ⟨hf, hm⟩, hid⟩

/-! ## Loader-loop lemmas -/

/-- C4 counterexample: the first conventional path exists (its `Stat`
succeeds) but holds a malformed document, and the loop goes on to load the
second path instead of degrading to an empty index. -/
theorem c4_malformed_not_short_circuit :
    fsC4 "pb/descriptor/all.protos.pb" = PathState.malformed ∧
    (possiblePaths "app").head? = some "pb/descriptor/all.protos.pb" ∧
    loadLoop fsC4 (possiblePaths "app") = [("Person", ["id"])] := by
  decide

/-- C4 amended: the loader uses the first candidate that both exists and
parses; candidates that are absent, unreadable or malformed are skipped
and later candidates are still consulted; the loop short-circuits on the
first successful load and yields the empty index when no candidate
loads. -/
theorem c4_amended_first_valid_wins (fs : String → PathState) (ps : List String) :
    loadLoop fs ps =
      match firstValid fs ps with
      | some fds => buildIndex fds
      | none => [] := by
  induction ps with
  | nil => rfl
  | cons p rest ih =>
    unfold loadLoop firstValid
    cases h : fs p <;> simp [ih]

/-! ## Traversal-order lemmas -/

mutual
theorem scanStmt_eq (reg : List Nat) (idx : DescIndex) (s : Stmt) :
    scanStmt reg idx s = (preorderStmts s).flatMap (emitStmt reg idx) := by
  cases s with
  | assign lhs => simp [scanStmt, preorderStmts, emitStmt]
  | incDec x => simp [scanStmt, preorderStmts, emitStmt]
  | block body =>
    rw [scanStmt, scanStmts_eq reg idx body]
    simp [preorderStmts, emitStmt]
  | other => simp [scanStmt, preorderStmts, emitStmt]

theorem scanStmts_eq (reg : List Nat) (idx : DescIndex) (l : List Stmt) :
    scanStmts reg idx l = (preorderList l).flatMap (emitStmt reg idx) := by
  cases l with
  | nil => simp [scanStmts, preorderList]
  | cons s rest =>
    rw [scanStmts, scanStmt_eq reg idx s, scanStmts_eq reg idx rest]
    simp [preorderList]
end

theorem preorderList_eq_flatMap (l : List Stmt) :
    preorderList l = l.flatMap preorderStmts := by
  induction l with
  | nil => simp [preorderList]
  | cons s rest ih => simp [preorderList, ih]

/-- Per-file scans agree with pre-order emission for any fixed registry. -/
theorem scanFiles_preorder (reg : List Nat) (idx : DescIndex) (files : List GoFile) :
    files.flatMap (fun f => scanStmts reg idx f.stmts) =
      files.flatMap (fun f =>
        (f.stmts.flatMap preorderStmts).flatMap (emitStmt reg idx)) := by
  induction files with
  | nil => rfl
  | cons f rest ih =>
    simp only [List.flatMap_cons]
    rw [scanStmts_eq, preorderList_eq_flatMap]
    exact congrArg _ ih

/-- C8: the checker is a pure function of its input, and its diagnostic
sequence is exactly the concatenation, in file order, of the diagnostics
of each file's statements in syntactic pre-order, each computed from the
one registry and index built for the run. -/
theorem c8_deterministic_order (fs : String → PathState) (pkgPath : String)
    (scope : List NamedStruct) (files : List GoFile) :
    run fs pkgPath scope files =
      files.flatMap (fun f =>
        (f.stmts.flatMap preorderStmts).flatMap
          (emitStmt (runRegistry fs pkgPath scope files) (runIndex fs pkgPath))) := by
  unfold run
  exact scanFiles_preorder _ _ files

/-! ## Degraded-mode lemmas -/

theorem loadLoop_no_valid (fs : String → PathState) (ps : List String)
    (h : ∀ p ∈ ps, ∀ fds, fs p ≠ PathState.valid fds) :
    loadLoop fs ps = [] := by
  induction ps with
  | nil => rfl
  | cons p rest ih =>
    unfold loadLoop
    cases hp : fs p with
    | valid fds => exact absurd hp (h p (List.mem_cons_self _ _) fds)
    | absent => exact ih (fun q hq => h q (List.mem_cons_of_mem _ hq))
    | unreadable => exact ih (fun q hq => h q (List.mem_cons_of_mem _ hq))
    | malformed => exact ih (fun q hq => h q (List.mem_cons_of_mem _ hq))

theorem buildLocalSet_empty_index (scope : List NamedStruct) :
    buildLocalSet [] scope = [] := by
  unfold buildLocalSet
  induction scope with
  | nil => rfl
  | cons ns rest ih => simp [List.flatMap_cons, mapGet, List.lookup, ih]

/-- C9: when no candidate path holds a loadable descriptor document the
run still completes, the descriptor index stays empty, and the output is
exactly the mutation scan driven by the tag/comment markers alone (so no
diagnostic is issued for the absence and local detections are
unchanged). -/
theorem c9_descriptor_absent_degraded (fs : String → PathState) (pkgPath : String)
    (scope : List NamedStruct) (files : List GoFile)
    (h : ∀ p ∈ possiblePaths pkgPath, ∀ fds, fs p ≠ PathState.valid fds) :
    runIndex fs pkgPath = [] ∧
    run fs pkgPath scope files =
      files.flatMap (fun f => scanStmts (localMarks files) [] f.stmts) := by
  have hidx : runIndex fs pkgPath = [] := loadLoop_no_valid fs _ h
  refine ⟨hidx, ?_⟩
  unfold run runRegistry
  rw [hidx, buildLocalSet_empty_index]
  simp

/-- Witness for `c9_descriptor_absent_degraded`: with no descriptor
anywhere, the comment-marked field of `filesC9w` still drives the scan. -/
theorem c9_descriptor_absent_witness :
    runIndex (fun _ => PathState.absent) "app" = [] ∧
    run (fun _ => PathState.absent) "app" [] filesC9w =
      filesC9w.flatMap (fun f => scanStmts (localMarks filesC9w) [] f.stmts) :=
  c9_descriptor_absent_degraded (fun _ => PathState.absent) "app" [] filesC9w
    (fun p _ fds hq => by cases hq)

/-! ## Diagnostic-origin inversion lemmas -/

theorem mem_checkSelAssign {reg : List Nat} {idx : DescIndex} {e : Expr}
    {d : Diagnostic} (h : d ∈ checkSelAssign reg idx e) :
    ∃ t ∈ lhsSelTargets e, ∃ v, varOf t.2 = some v ∧ d.pos = t.1 ∧
      (reg.contains v.id = true ∨ fallbackMatch idx t.2 v = true) := by
  cases e with
  | sel p oi =>
    cases oi with
    | none => simp [checkSelAssign] at h
    | some si =>
      cases hobj : si.obj with
      | nonVar => simp [checkSelAssign, hobj] at h
      | fieldVar v =>
        simp only [checkSelAssign, hobj] at h
        by_cases h1 : reg.contains v.id = true
        · rw [if_pos h1] at h
          obtain rfl : d = ⟨p, assignMsg v.name⟩ := by simpa using h
          exact ⟨(p, si), by simp [lhsSelTargets], v, by simp [varOf, hobj],
            rfl, Or.inl h1⟩
        · rw [if_neg h1] at h
          by_cases h2 : fallbackMatch idx si v = true
          · rw [if_pos h2] at h
            obtain rfl : d = ⟨p, assignMsg v.name⟩ := by simpa using h
            exact ⟨(p, si), by simp [lhsSelTargets], v, by simp [varOf, hobj],
              rfl, Or.inr h2⟩
          · rw [if_neg h2] at h
            cases h
  | index ipos x => simp [checkSelAssign] at h
  | ident p => simp [checkSelAssign] at h

theorem mem_checkIndexAssign {reg : List Nat} {idx : DescIndex} {e : Expr}
    {d : Diagnostic} (h : d ∈ checkIndexAssign reg idx e) :
    ∃ t ∈ lhsSelTargets e, ∃ v, varOf t.2 = some v ∧ d.pos = t.1 ∧
      (reg.contains v.id = true ∨ fallbackMatch idx t.2 v = true) := by
  cases e with
  | sel p oi => simp [checkIndexAssign] at h
  | ident p => simp [checkIndexAssign] at h
  | index ipos x =>
    cases x with
    | index q y => simp [checkIndexAssign] at h
    | ident q => simp [checkIndexAssign] at h
    | sel q oi =>
      cases oi with
      | none => simp [checkIndexAssign] at h
      | some si =>
        cases hobj : si.obj with
        | nonVar => simp [checkIndexAssign, hobj] at h
        | fieldVar v =>
          simp only [checkIndexAssign, hobj] at h
          by_cases h1 : reg.contains v.id = true
          · rw [if_pos h1] at h
            obtain rfl : d = ⟨ipos, indexMsg v.name⟩ := by simpa using h
            exact ⟨(ipos, si), by simp [lhsSelTargets], v, by simp [varOf, hobj],
              rfl, Or.inl h1⟩
          · rw [if_neg h1] at h
            by_cases h2 : fallbackMatch idx si v = true
            · rw [if_pos h2] at h
              obtain rfl : d = ⟨ipos, indexMsg v.name⟩ := by simpa using h
              exact ⟨(ipos, si), by simp [lhsSelTargets], v, by simp [varOf, hobj],
                rfl, Or.inr h2⟩
            · rw [if_neg h2] at h
              cases h

theorem mem_checkLhs {reg : List Nat} {idx : DescIndex} {e : Expr}
    {d : Diagnostic} (h : d ∈ checkLhs reg idx e) :
    ∃ t ∈ lhsSelTargets e, ∃ v, varOf t.2 = some v ∧ d.pos = t.1 ∧
      (reg.contains v.id = true ∨ fallbackMatch idx t.2 v = true) := by
  rcases List.mem_append.mp h with h' | h'
  · exact mem_checkSelAssign h'
  · exact mem_checkIndexAssign h'

theorem mem_checkIncDec {reg : List Nat} {idx : DescIndex} {x : Expr}
    {d : Diagnostic} (h : d ∈ checkIncDec reg idx x) :
    ∃ t ∈ stmtTargets (Stmt.incDec x), ∃ v, varOf t.2 = some v ∧ d.pos = t.1 ∧
      (reg.contains v.id = true ∨ fallbackMatch idx t.2 v = true) := by
  cases x with
  | index ipos y => simp [checkIncDec] at h
  | ident p => simp [checkIncDec] at h
  | sel p oi =>
    cases oi with
    | none => simp [checkIncDec] at h
    | some si =>
      cases hobj : si.obj with
      | nonVar => simp [checkIncDec, hobj] at h
      | fieldVar v =>
        simp only [checkIncDec, hobj] at h
        rcases List.mem_append.mp h with h' | h'
        · by_cases h1 : reg.contains v.id = true
          · rw [if_pos h1] at h'
            obtain rfl : d = ⟨p, incDecMsg v.name⟩ := by simpa using h'
            exact ⟨(p, si), by simp [stmtTargets], v, by simp [varOf, hobj],
              rfl, Or.inl h1⟩
          · rw [if_neg h1] at h'
            cases h'
        · by_cases h2 : fallbackMatch idx si v = true
          · rw [if_pos h2] at h'
            obtain rfl : d = ⟨p, incDecMsg v.name⟩ := by simpa using h'
            exact ⟨(p, si), by simp [stmtTargets], v, by simp [varOf, hobj],
              rfl, Or.inr h2⟩
          · rw [if_neg h2] at h'
            cases h'

theorem mem_emitStmt {reg : List Nat} {idx : DescIndex} {s : Stmt}
    {d : Diagnostic} (h : d ∈ emitStmt reg idx s) :
    ∃ t ∈ stmtTargets s, ∃ v, varOf t.2 = some v ∧ d.pos = t.1 ∧
      (reg.contains v.id = true ∨ fallbackMatch idx t.2 v = true) := by
  cases s with
  | assign lhs =>
    simp only [emitStmt] at h
    rw [List.mem_flatMap] at h
    obtain ⟨e, he, hd⟩ := h
    obtain ⟨t, ht, v, hv, hp, hc⟩ := mem_checkLhs hd
    refine ⟨t, ?_, v, hv, hp, hc⟩
    simp only [stmtTargets]
    rw [List.mem_flatMap]
    exact ⟨e, he, ht⟩
  | incDec x => exact mem_checkIncDec h
  | block body => simp [emitStmt] at h
  | other => simp [emitStmt] at h

theorem mem_run {fs : String → PathState} {pkgPath : String}
    {scope : List NamedStruct} {files : List GoFile} {d : Diagnostic}
    (h : d ∈ run fs pkgPath scope files) :
    ∃ t ∈ allTargets files, ∃ v, varOf t.2 = some v ∧ d.pos = t.1 ∧
      ((runRegistry fs pkgPath scope files).contains v.id = true ∨
        fallbackMatch (runIndex fs pkgPath) t.2 v = true) := by
  unfold run at h
  rw [List.mem_flatMap] at h
  obtain ⟨f, hf, hd⟩ := h
  rw [scanStmts_eq, preorderList_eq_flatMap, List.mem_flatMap] at hd
  obtain ⟨s', hs', hd⟩ := hd
  rw [List.mem_flatMap] at hs'
  obtain ⟨s, hs, hs'mem⟩ := hs'
  obtain ⟨t, ht, v, hv, hp, hc⟩ := mem_emitStmt hd
  refine ⟨t, ?_, v, hv, hp, hc⟩
  unfold allTargets
  rw [List.mem_flatMap]
  refine ⟨f, hf, ?_⟩
  rw [List.mem_flatMap]
  refine ⟨s, hs, ?_⟩
  rw [List.mem_flatMap]
  exact ⟨s', hs'mem, ht⟩

/-! ## Marker-free fields (C2) -/

/-- C2 counterexample: the field `Id` of a `pb`-package type named
`Person` carries no tag, comment or descriptor marker of its own (the
files declare no markers at all and the scope is empty), yet one
diagnostic is emitted for its assignment because the type name collides
with the descriptor message `Person` and the package heuristic accepts
`pb`. -/
theorem c2_collision_false_positive :
    run fsOk "m/app" [] [⟨[], [Stmt.assign [Expr.sel 6 (some siC2x)]]⟩] =
      [⟨6, assignMsg "Id"⟩] := by
  decide

/-- C2 amended: a field with no marker from any origin draws no diagnostic
at any of its mutation sites, provided it is also not captured by the
name-collision heuristics — its symbol is outside the computed registry
and no occurrence of it satisfies the `pb`-package descriptor fallback.
(The counterexample shows the proviso is necessary.)  The position
hypothesis says source positions are not shared across distinct checked
selectors, as token positions in a real parse never are. -/
theorem c2_amended_no_marker_silent (fs : String → PathState) (pkgPath : String)
    (scope : List NamedStruct) (files : List GoFile) (v : GoVar) (p0 : Nat)
    (hreg : (runRegistry fs pkgPath scope files).contains v.id = false)
    (hfb : ∀ t ∈ allTargets files, varOf t.2 = some v →
      fallbackMatch (runIndex fs pkgPath) t.2 v = false)
    (hpos : ∀ t ∈ allTargets files, t.1 = p0 → varOf t.2 = some v) :
    ∀ d ∈ run fs pkgPath scope files, d.pos ≠ p0 := by
  intro d hd hp
  obtain ⟨t, ht, v', hv', hdp, hc⟩ := mem_run hd
  have htv : varOf t.2 = some v := hpos t ht (hdp.symm.trans hp)
  obtain rfl : v' = v := by
    rw [hv'] at htv
    exact (Option.some.injEq _ _).mp htv
  rcases hc with hc | hc
  · rw [hreg] at hc
    cases hc
  · rw [hfb t ht htv] at hc
    cases hc

/-- Witness for `c2_amended_no_marker_silent`: the unmarked field `Name`
assigned at position 5 in `filesC2w` draws no diagnostic there. -/
theorem c2_amended_witness :
    (run (fun _ => PathState.absent) "app" [] filesC2w).filter
      (fun d => d.pos == 5) = [] := by
  have h := c2_amended_no_marker_silent (fun _ => PathState.absent) "app" []
    filesC2w vC2w 5 (by decide) (by decide) (by decide)
  rw [List.filter_eq_nil_iff]
  intro d hd
  simpa using h d hd

/-! ## Per-event reporting (C1) -/

/-- C1 counterexample: an increment of a field that is both in the local
set (built from the scope and the loaded descriptor) and matched by the
descriptor fallback is reported twice, not exactly once. -/
theorem c1_incdec_double_report :
    run fsOk "proj/pb" [⟨"Person", [⟨7, "Id"⟩]⟩]
        [⟨[], [Stmt.incDec (Expr.sel 5 (some siC1w))]⟩] =
      [⟨5, incDecMsg "Id"⟩, ⟨5, incDecMsg "Id"⟩] := by
  decide

/-- C1 amended: every diagnostic sits at the mutating expression (the
selector for Assign/IncDec, the index expression for IndexMutate) and each
left-hand-side target of a multi-target assignment is processed
independently; an assignment or indexed-write target yields at most one
diagnostic, the fallback being consulted only when the local set misses;
but for increment/decrement the local check and the fallback are
independent, so an operand matched by both yields two diagnostics. -/
theorem c1_amended_per_event (reg : List Nat) (idx : DescIndex)
    (pos ipos spos : Nat) (si : SelInfo) (v : GoVar)
    (h : si.obj = SelObj.fieldVar v) :
    (checkLhs reg idx (Expr.sel pos (some si)) =
      if reg.contains v.id then [⟨pos, assignMsg v.name⟩]
      else if fallbackMatch idx si v then [⟨pos, assignMsg v.name⟩]
      else []) ∧
    (checkLhs reg idx (Expr.index ipos (Expr.sel spos (some si))) =
      if reg.contains v.id then [⟨ipos, indexMsg v.name⟩]
      else if fallbackMatch idx si v then [⟨ipos, indexMsg v.name⟩]
      else []) ∧
    (checkIncDec reg idx (Expr.sel pos (some si)) =
      (if reg.contains v.id then [⟨pos, incDecMsg v.name⟩] else []) ++
      (if fallbackMatch idx si v then [⟨pos, incDecMsg v.name⟩] else [])) ∧
    (checkLhs reg idx (Expr.sel pos (some si))).length ≤ 1 ∧
    (checkLhs reg idx (Expr.index ipos (Expr.sel spos (some si)))).length ≤ 1 ∧
    (∀ d ∈ checkLhs reg idx (Expr.sel pos (some si)), d.pos = pos) ∧
    (∀ d ∈ checkLhs reg idx (Expr.index ipos (Expr.sel spos (some si))),
      d.pos = ipos) ∧
    (∀ d ∈ checkIncDec reg idx (Expr.sel pos (some si)), d.pos = pos) ∧
    (∀ lhs, emitStmt reg idx (Stmt.assign lhs) = lhs.flatMap (checkLhs reg idx)) := by
  have hsel : checkLhs reg idx (Expr.sel pos (some si)) =
      if reg.contains v.id then [⟨pos, assignMsg v.name⟩]
      else if fallbackMatch idx si v then [⟨pos, assignMsg v.name⟩]
      else [] := by
    unfold checkLhs
    simp only [checkSelAssign, checkIndexAssign, h, List.append_nil]
  have hidx : checkLhs reg idx (Expr.index ipos (Expr.sel spos (some si))) =
      if reg.contains v.id then [⟨ipos, indexMsg v.name⟩]
      else if fallbackMatch idx si v then [⟨ipos, indexMsg v.name⟩]
      else [] := by
    unfold checkLhs
    simp only [checkSelAssign, checkIndexAssign, h, List.nil_append]
  have hinc : checkIncDec reg idx (Expr.sel pos (some si)) =
      (if reg.contains v.id then [⟨pos, incDecMsg v.name⟩] else []) ++
      (if fallbackMatch idx si v then [⟨pos, incDecMsg v.name⟩] else []) := by
    simp only [checkIncDec, h]
  refine ⟨hsel, hidx, hinc, ?_, ?_, ?_, ?_, ?_, fun lhs => rfl⟩
  · rw [hsel]
    split_ifs <;> simp
  · rw [hidx]
    split_ifs <;> simp
  · intro d hd
    rw [hsel] at hd
    split_ifs at hd <;> simp_all
  · intro d hd
    rw [hidx] at hd
    split_ifs at hd <;> simp_all
  · intro d hd
    rw [hinc] at hd
    rcases List.mem_append.mp hd with h' | h' <;> split_ifs at h' <;> simp_all

/-- Witness for `c1_amended_per_event` at a concrete both-matched field:
the assignment and indexed forms report once, the inc/dec form twice. -/
theorem c1_amended_witness :
    (checkLhs [7] idxC1w (Expr.sel 4 (some siC1w)) =
      if List.contains [7] vC1w.id then [⟨4, assignMsg vC1w.name⟩]
      else if fallbackMatch idxC1w siC1w vC1w then [⟨4, assignMsg vC1w.name⟩]
      else []) ∧
    (checkLhs [7] idxC1w (Expr.index 11 (Expr.sel 12 (some siC1w))) =
      if List.contains [7] vC1w.id then [⟨11, indexMsg vC1w.name⟩]
      else if fallbackMatch idxC1w siC1w vC1w then [⟨11, indexMsg vC1w.name⟩]
      else []) ∧
    (checkIncDec [7] idxC1w (Expr.sel 4 (some siC1w)) =
      (if List.contains [7] vC1w.id then [⟨4, incDecMsg vC1w.name⟩] else []) ++
      (if fallbackMatch idxC1w siC1w vC1w then [⟨4, incDecMsg vC1w.name⟩] else [])) ∧
    (checkLhs [7] idxC1w (Expr.sel 4 (some siC1w))).length ≤ 1 ∧
    (checkLhs [7] idxC1w (Expr.index 11 (Expr.sel 12 (some siC1w)))).length ≤ 1 ∧
    (∀ d ∈ checkLhs [7] idxC1w (Expr.sel 4 (some siC1w)), d.pos = 4) ∧
    (∀ d ∈ checkLhs [7] idxC1w (Expr.index 11 (Expr.sel 12 (some siC1w))),
      d.pos = 11) ∧
    (∀ d ∈ checkIncDec [7] idxC1w (Expr.sel 4 (some siC1w)), d.pos = 4) ∧
    (∀ lhs, emitStmt [7] idxC1w (Stmt.assign lhs) =
      lhs.flatMap (checkLhs [7] idxC1w)) :=
  c1_amended_per_event [7] idxC1w 4 11 12 siC1w vC1w rfl

/-! ## Inline tag recognition (C7) -/

/-- C7: because `strings.Trim` strips the trailing double quote of the raw
tag literal before the substring test, a field whose tag ends with the
immutable key — in particular the sole-key tags `immutable:"true"` and
`immutable:"1"` that the repository README documents as detected — is not
marked immutable; the same key is recognized when another key follows
it. -/
theorem c7_tag_last_key_not_detected :
    goTrim "`immutable:\"true\"`" goTagCutset = "immutable:\"true" ∧
    tagMarksImmutable "`immutable:\"true\"`" = false ∧
    tagMarksImmutable "`immutable:\"1\"`" = false ∧
    tagMarksImmutable "`immutable:\"true\" json:\"id\"`" = true ∧
    tagMarksImmutable "`immutable:\"1\" json:\"id\"`" = true ∧
    astFieldMarksImmutable ⟨some "`immutable:\"true\"`", [], []⟩ = false := by
  decide

/-! ## Indexed writes fire only on direct selectors (C10) -/

/-- C10: the indexed-write rule fires only when the indexed container is
itself a selector expression: a doubly indexed target such as
`s.F[i][j] = v`, an indexed local such as `m[k] = v`, and the binding
`m := s.F` itself (assignment inspects only left-hand sides) all emit
nothing, for every registry and index. -/
theorem c10_index_only_direct_selector (reg : List Nat) (idx : DescIndex)
    (ip ip2 p : Nat) (y : Expr) :
    checkLhs reg idx (Expr.index ip (Expr.index ip2 y)) = [] ∧
    checkLhs reg idx (Expr.index ip (Expr.ident ip2)) = [] ∧
    checkLhs reg idx (Expr.ident p) = [] ∧
    emitStmt reg idx (Stmt.assign
      [Expr.index ip (Expr.index ip2 y), Expr.index ip (Expr.ident ip2),
       Expr.ident p]) = [] := by
  refine ⟨?_, ?_, ?_, ?_⟩ <;>
    simp [checkLhs, checkSelAssign, checkIndexAssign, emitStmt]
